import Mathlib

/-!
# Azure Table Storage hook for logrus (`atshook.go`)

A shallow embedding of the Go package `atshook`: the hook constructor `NewHook`
with its helpers `createTableClient` and `createTable`, and the two methods
`Fire` and `Levels` of `*AtsHook`.

The Azure table service, the process environment and the logrus library are
outside the package.  They enter the embedding as parameters:

* `Logrus` holds the canonical level list and the level names;
* `Backend σ` holds the environment, the client constructor and the two
  table-service requests the package issues, over a service state `σ`.

Every request the package sends is recorded in a list of `Call`s, so that
statements about how many requests are issued, and with which arguments, can be
made.  Console output (`fmt.Printf`, `fmt.Println`) is not modelled.
-/

namespace Atshook

/-! ## Constants of the package -/

def tableAlreadyExists : String := "TableAlreadyExists"
def timestampID : String := "LogTimestamp"
def levelID : String := "Level"
def messageID : String := "Message"

/-! ## logrus -/

/-- A logrus level: `type Level uint32`; a smaller number is more severe. -/
abbrev Level := Nat

/-- The part of the logrus library the hook reads: the canonical level list
`logrus.AllLevels` and the level names given by `Level.String`. -/
structure Logrus where
  AllLevels : List Level
  levelString : Level → String

/-! ## Time -/

/-- The location a `time.Time` is displayed in. -/
inductive Location where
  | utc
  | localZone
  | fixed (name : String) (offsetSeconds : Int)
  deriving DecidableEq, Repr

/-- A Go `time.Time`: an instant, given by the nanoseconds elapsed since
1970-01-01T00:00:00Z as a mathematical integer, and a location.  The range of
`time.Time` is far wider than that of a 64-bit nanosecond count. -/
structure Time where
  nanos : Int
  loc : Location
  deriving DecidableEq, Repr

/-- Conversion of a mathematical integer to `int64` (two's complement). -/
def wrapInt64 (x : Int) : Int := (x + 2 ^ 63) % 2 ^ 64 - 2 ^ 63

/-- The method `Time.UnixNano`: seconds times `1e9` plus nanoseconds, computed
in `int64` arithmetic, so the result wraps when the instant does not fit. -/
def Time.UnixNano (t : Time) : Int := wrapInt64 t.nanos

/-- The method `Time.UTC`: the same instant with the location set to UTC. -/
def Time.UTC (t : Time) : Time := { t with loc := Location.utc }

/-! ## Values and field maps -/

/-- A Go `interface{}` value, as far as the hook distinguishes them. -/
inductive Value where
  | null
  | str (s : String)
  | int (i : Int)
  | bool (b : Bool)
  | time (t : Time)
  deriving DecidableEq, Repr

/-- The type assertion `v.(string)` in its one-result form: `none` stands for
the run-time panic Go raises when the dynamic type is not `string`. -/
def Value.assertString : Value → Option String
  | Value.str s => some s
  | _ => none

/-- A Go `map[string]interface{}`: finitely many bindings with distinct keys. -/
abbrev Fields := AList (fun _ : String => Value)

/-- A `logrus.Entry`, as far as `Fire` reads it. -/
structure Entry where
  Data : Fields
  Time : Time
  Level : Level
  Message : String

/-! ## The storage client -/

/-- A Go `error` coming back from the storage package: either the value type
`storage.AzureStorageServiceError`, which carries a service error code, or an
error of any other dynamic type. -/
inductive Error where
  | azureStorageService (code : String) (message : String) (statusCode : Nat)
  | other (msg : String)
  deriving DecidableEq, Repr

/-- A `storage.Client`, identified by the credentials it was opened with. -/
structure Client where
  accountName : String
  accountKey : String
  deriving DecidableEq, Repr

structure TableServiceClient where
  client : Client
  deriving DecidableEq, Repr

/-- The method `Client.GetTableService`. -/
def Client.GetTableService (c : Client) : TableServiceClient := ⟨c⟩

/-- A `storage.Table` reference. -/
structure Table where
  tsc : TableServiceClient
  Name : String
  deriving DecidableEq, Repr

/-- The method `TableServiceClient.GetTableReference`. -/
def TableServiceClient.GetTableReference (t : TableServiceClient) (name : String) : Table :=
  ⟨t, name⟩

/-- A `storage.Entity`: a row of a table. -/
structure Entity where
  Table : Table
  PartitionKey : String
  RowKey : String
  Properties : Fields

/-- The method `Table.GetEntityReference`: a row with no properties yet. -/
def Table.GetEntityReference (t : Table) (partitionKey rowKey : String) : Entity :=
  ⟨t, partitionKey, rowKey, ∅⟩

/-- A request the package sends out. -/
inductive Call where
  | newBasicClient (accountName accountKey : String)
  | tableCreate (table : Table) (timeout : Nat)
  | entityInsert (row : Entity)

/-- The world outside the package, over a service state `σ`:
`os.Getenv`, `storage.NewBasicClient`, `Table.Create` and `Entity.Insert`.
A request returns `none` for a nil error. -/
structure Backend (σ : Type) where
  Getenv : String → String
  NewBasicClient : String → String → Except Error Client
  Create : σ → Table → Nat → Option Error × σ
  Insert : σ → Entity → Option Error × σ

/-- What a run of package code leaves behind: its result, the requests it
sent, in order, and the service state afterwards. -/
structure Run (σ : Type) (α : Type) where
  value : α
  calls : List Call
  state : σ

/-! ## The hook -/

/-- The struct `AtsHook`, as `NewHook` fills it: `table` is the reference
`createTable` returned, so it is never nil on a non-nil hook.  The field
`formatter` is never assigned. -/
structure AtsHook where
  accountName : String
  accountKey : String
  tableName : String
  tableCli : TableServiceClient
  table : Table
  levels : List Level
  formatter : Option Unit
  deriving DecidableEq

/-- The loop at the head of `NewHook`: walk `logrus.AllLevels` and append each
level that is `<= level`. -/
def selectLevels (lib : Logrus) (level : Level) : List Level :=
  lib.AllLevels.foldl (fun levels lev => if lev ≤ level then levels ++ [lev] else levels) []

/-- The function `createTableClient`: fall back to the environment when either
argument is empty, then open the client. -/
def createTableClient {σ : Type} (b : Backend σ) (accountName accountKey : String) :
    Except Error Client × List Call :=
  let creds : String × String :=
    if accountName = "" ∨ accountKey = "" then
      (b.Getenv "ACCOUNT_NAME", b.Getenv "ACCOUNT_KEY")
    else (accountName, accountKey)
  match b.NewBasicClient creds.1 creds.2 with
  | Except.error err => (Except.error err, [Call.newBasicClient creds.1 creds.2])
  | Except.ok client => (Except.ok client, [Call.newBasicClient creds.1 creds.2])

/-- The function `createTable`: request creation with a timeout of 30 and
accept the service error `TableAlreadyExists`. -/
def createTable {σ : Type} (b : Backend σ) (tableCli : TableServiceClient) (tableName : String)
    (s : σ) : Run σ (Except Error Table) :=
  let table := tableCli.GetTableReference tableName
  match b.Create s table 30 with
  | (none, s1) => ⟨Except.ok table, [Call.tableCreate table 30], s1⟩
  | (some err, s1) =>
    match err with
    | Error.azureStorageService code _ _ =>
      if code ≠ tableAlreadyExists then
        ⟨Except.error (Error.other ("Unable to create log table: " ++ tableName)),
          [Call.tableCreate table 30], s1⟩
      else ⟨Except.ok table, [Call.tableCreate table 30], s1⟩
    | Error.other _ => ⟨Except.error err, [Call.tableCreate table 30], s1⟩

/-- The function `NewHook`; `none` is the nil hook. -/
def NewHook {σ : Type} (lib : Logrus) (b : Backend σ) (accountName accountKey tableName : String)
    (level : Level) (s : σ) : Run σ (Option AtsHook) :=
  let levels := selectLevels lib level
  match createTableClient b accountName accountKey with
  | (Except.error _, calls) => ⟨none, calls, s⟩
  | (Except.ok client, calls) =>
    let tableCli := client.GetTableService
    let r := createTable b tableCli tableName s
    match r.value with
    | Except.error _ => ⟨none, calls ++ r.calls, r.state⟩
    | Except.ok table =>
      ⟨some ⟨accountName, accountKey, tableName, tableCli, table, levels, none⟩,
        calls ++ r.calls, r.state⟩

/-- The method `Levels`, on a possibly nil receiver. -/
def Levels (lib : Logrus) (hook : Option AtsHook) : List Level :=
  match hook with
  | none => lib.AllLevels
  | some h => h.levels

/-! ## Decimal formatting -/

/-- The digit loop of `strconv.FormatInt` in base 10: peel off the last digit
until the rest is below ten.  An unsigned 64-bit number has at most twenty
digits, which bounds the loop. -/
def decimalDigits : Nat → Nat → List Char → List Char
  | 0, _, acc => acc
  | fuel + 1, u, acc =>
    if u < 10 then Nat.digitChar u :: acc
    else decimalDigits fuel (u / 10) (Nat.digitChar (u % 10) :: acc)

/-- The function `strconv.FormatInt(i, 10)` for an `int64` argument `i`. -/
def FormatInt (i : Int) : String :=
  if i < 0 then String.mk ('-' :: decimalDigits 20 i.natAbs [])
  else String.mk (decimalDigits 20 i.natAbs [])

/-! ## Fire -/

/-- The row key of `Fire`: `strconv.FormatInt(int64(entry.Time.UnixNano()), 10)`. -/
def rowKey (entry : Entry) : String := FormatInt (wrapInt64 entry.Time.UnixNano)

/-- The property map of `Fire`: copy every field of the entry into a fresh
map, then assign the three reserved fields. -/
def props (lib : Logrus) (entry : Entry) : Fields :=
  let props : Fields := entry.Data.entries.foldl (fun props kv => props.insert kv.1 kv.2) ∅
  let props := props.insert timestampID (Value.time entry.Time.UTC)
  let props := props.insert levelID (Value.str (lib.levelString entry.Level))
  props.insert messageID (Value.str entry.Message)

/-- The partition key of `Fire`: `"logrus"`, replaced by `service.(string)`
when the property map has a `"service"` key; `none` is the panic of a failed
type assertion. -/
def partitionKey (props : Fields) : Option String :=
  match props.lookup "service" with
  | some service => service.assertString
  | none => some "logrus"

/-- How a call of `Fire` ends: it returns an error value (`none` for nil), or
it panics. -/
inductive Outcome where
  | returned (err : Option Error)
  | panicked
  deriving DecidableEq, Repr

/-- The method `Fire`, on a possibly nil receiver. -/
def Fire {σ : Type} (lib : Logrus) (b : Backend σ) (hook : Option AtsHook) (entry : Entry)
    (s : σ) : Run σ Outcome :=
  match hook with
  | none => ⟨Outcome.returned none, [], s⟩
  | some hook =>
    let rowKey := rowKey entry
    let props := props lib entry
    match partitionKey props with
    | none => ⟨Outcome.panicked, [], s⟩
    | some partitionKey =>
      let tableEntry := hook.table.GetEntityReference partitionKey rowKey
      let tableEntry := { tableEntry with Properties := props }
      match b.Insert s tableEntry with
      | (some err, s1) => ⟨Outcome.returned (some err), [Call.entityInsert tableEntry], s1⟩
      | (none, s1) => ⟨Outcome.returned none, [Call.entityInsert tableEntry], s1⟩


/-! ## Properties stated in the words of the specification -/

/-- A table-creation result the constructor accepts, in the words of the
specification: the request succeeded, or it failed with a storage-service
error whose code is `TableAlreadyExists`. -/
def creationAccepted : Option Error → Bool
  | none => true
  | some (Error.azureStorageService code _ _) => code == "TableAlreadyExists"
  | some (Error.other _) => false

/-- A decimal digit, `'0'` to `'9'`. -/
def isDigitChar (c : Char) : Bool := decide (48 ≤ c.toNat) && decide (c.toNat ≤ 57)

/-- A valid decimal string, in the words of the specification: an optional
leading minus sign followed by decimal digits, at least one, and no other
character. -/
def isDecimalString (s : List Char) : Bool :=
  match s with
  | [] => false
  | c :: ds =>
    if c = '-' then !ds.isEmpty && ds.all isDigitChar else (c :: ds).all isDigitChar

/-- The number a string of decimal digits denotes, read from the left. -/
def digitsValue (ds : List Char) : Nat :=
  ds.foldl (fun acc c => acc * 10 + (c.toNat - 48)) 0

/-- The integer a decimal string denotes. -/
def decimalValue (s : List Char) : Int :=
  match s with
  | [] => 0
  | c :: ds => if c = '-' then -(digitsValue ds : Int) else (digitsValue (c :: ds) : Int)

/-- Lexicographic order on strings, character by character: the first
position where the strings differ decides, and a proper initial segment sorts
first. -/
def strLess : List Char → List Char → Bool
  | [], [] => false
  | [], _ :: _ => true
  | _ :: _, [] => false
  | a :: as, b :: bs => decide (a.toNat < b.toNat) || (decide (a = b) && strLess as bs)

/-- The instant fits the `int64` nanosecond count of `UnixNano`. -/
def fitsInt64 (t : Time) : Prop := -(2 ^ 63 : Int) ≤ t.nanos ∧ t.nanos ≤ 2 ^ 63 - 1

instance (t : Time) : Decidable (fitsInt64 t) := by
  unfold fitsInt64
  infer_instance

/-! ## Concrete surroundings for running the hook -/

/-- The logrus library at version 1: seven levels, from panic to trace. -/
def logrusV1 : Logrus where
  AllLevels := [0, 1, 2, 3, 4, 5, 6]
  levelString := fun l =>
    match l with
    | 0 => "panic" | 1 => "fatal" | 2 => "error" | 3 => "warning"
    | 4 => "info" | 5 => "debug" | 6 => "trace" | _ => "unknown"

/-- The state of an in-memory table service: the tables that exist and the
keys (table, partition key, row key) of the rows stored. -/
structure Store where
  tables : List String
  rows : List (String × String × String)
  deriving DecidableEq

/-- An in-memory table service.  Creating a table that exists and inserting a
row whose key exists are refused with the service errors Azure uses. -/
def memBackend : Backend Store where
  Getenv := fun k =>
    if k = "ACCOUNT_NAME" then "envacct" else if k = "ACCOUNT_KEY" then "envkey" else ""
  NewBasicClient := fun n k =>
    if n = "" ∨ k = "" then Except.error (Error.other "azure: account name or key required")
    else Except.ok ⟨n, k⟩
  Create := fun s t _ =>
    if t.Name ∈ s.tables then
      (some (Error.azureStorageService "TableAlreadyExists"
        "The table specified already exists." 409), s)
    else (none, { s with tables := t.Name :: s.tables })
  Insert := fun s e =>
    if (e.Table.Name, e.PartitionKey, e.RowKey) ∈ s.rows then
      (some (Error.azureStorageService "EntityAlreadyExists"
        "The specified entity already exists." 409), s)
    else (none, { s with rows := (e.Table.Name, e.PartitionKey, e.RowKey) :: s.rows })

/-- The service with nothing in it. -/
def emptyStore : Store := ⟨[], []⟩

/-- The hook `NewHook("acct", "key", "applogs", InfoLevel)` builds. -/
def demoHook : AtsHook :=
  ⟨"acct", "key", "applogs", ⟨⟨"acct", "key"⟩⟩, ⟨⟨⟨"acct", "key"⟩⟩, "applogs"⟩,
    [0, 1, 2, 3, 4], none⟩

/-- An instant in July 2017, in the local zone. -/
def demoTime : Time := ⟨1500000000000000000, Location.localZone⟩

/-- An entry without structured fields. -/
def bootEntry : Entry := ⟨∅, demoTime, 4, "boot"⟩

/-- An entry whose `service` field is a string. -/
def billingEntry : Entry :=
  ⟨(∅ : Fields).insert "service" (Value.str "billing"), demoTime, 4, "x"⟩

/-- An entry whose `service` field is an integer. -/
def intServiceEntry : Entry :=
  ⟨(∅ : Fields).insert "service" (Value.int 5), demoTime, 4, "x"⟩

/-- An entry that names one of its own fields `Level`. -/
def clashEntry : Entry :=
  ⟨((∅ : Fields).insert "Level" (Value.str "mine")).insert "user" (Value.int 7), demoTime, 2, "y"⟩

/-- An entry stamped at the Unix epoch. -/
def epochEntry : Entry := ⟨∅, ⟨0, Location.utc⟩, 4, "epoch"⟩

/-- An entry stamped 2262-04-11T23:47:16.854775808Z, one nanosecond past the
last instant an `int64` nanosecond count reaches. -/
def lateEntry : Entry := ⟨∅, ⟨2 ^ 63, Location.utc⟩, 4, "late"⟩

/-- An entry stamped nine nanoseconds after the epoch. -/
def nineEntry : Entry := ⟨∅, ⟨9, Location.utc⟩, 4, "nine"⟩

/-- An entry stamped ten nanoseconds after the epoch. -/
def tenEntry : Entry := ⟨∅, ⟨10, Location.utc⟩, 4, "ten"⟩

/-- An entry stamped one second after `bootEntry`. -/
def laterEntry : Entry := ⟨∅, ⟨1500000001000000000, Location.localZone⟩, 4, "later"⟩

/-- The service after the table `applogs` has been created. -/
def provisionedStore : Store := ⟨["applogs"], []⟩

/-! ## Lemmas on the constructor -/

theorem foldl_select_eq (level : Level) (l acc : List Level) :
    l.foldl (fun levels lev => if lev ≤ level then levels ++ [lev] else levels) acc
      = acc ++ l.filter (fun lev => decide (lev ≤ level)) := by
  induction l generalizing acc with
  | nil => simp
  | cons x t ih =>
    by_cases hx : x ≤ level
    · simp [List.foldl_cons, ih, hx, List.filter_cons]
    · simp [List.foldl_cons, ih, hx, List.filter_cons]

theorem selectLevels_eq_filter (lib : Logrus) (level : Level) :
    selectLevels lib level = lib.AllLevels.filter (fun lev => decide (lev ≤ level)) := by
  simp [selectLevels, foldl_select_eq]

theorem createTable_value {σ : Type} (b : Backend σ) (tableCli : TableServiceClient)
    (tableName : String) (s : σ) :
    (creationAccepted (b.Create s (tableCli.GetTableReference tableName) 30).1 = true →
        (createTable b tableCli tableName s).value
          = Except.ok (tableCli.GetTableReference tableName)) ∧
    (creationAccepted (b.Create s (tableCli.GetTableReference tableName) 30).1 = false →
        ∃ err, (createTable b tableCli tableName s).value = Except.error err) := by
  unfold createTable
  rcases hres : b.Create s (tableCli.GetTableReference tableName) 30 with ⟨r, s1⟩
  cases r with
  | none => simp [hres, creationAccepted]
  | some err =>
    cases err with
    | other msg => simp [hres, creationAccepted]
    | azureStorageService code m st =>
      by_cases hcode : code = "TableAlreadyExists"
      · simp [hres, creationAccepted, tableAlreadyExists, hcode]
      · simp [hres, creationAccepted, tableAlreadyExists, hcode]

theorem NewHook_value {σ : Type} (lib : Logrus) (b : Backend σ)
    (accountName accountKey tableName : String) (level : Level) (s : σ) (client : Client)
    (hc : (createTableClient b accountName accountKey).1 = Except.ok client) :
    (creationAccepted
        (b.Create s (client.GetTableService.GetTableReference tableName) 30).1 = true →
      (NewHook lib b accountName accountKey tableName level s).value
        = some ⟨accountName, accountKey, tableName, client.GetTableService,
            client.GetTableService.GetTableReference tableName, selectLevels lib level, none⟩) ∧
    (creationAccepted
        (b.Create s (client.GetTableService.GetTableReference tableName) 30).1 = false →
      (NewHook lib b accountName accountKey tableName level s).value = none) := by
  have hct := createTable_value b client.GetTableService tableName s
  unfold NewHook
  rcases hcc : createTableClient b accountName accountKey with ⟨r, calls⟩
  rw [hcc] at hc
  simp only at hc
  subst hc
  constructor
  · intro h
    simp [hct.1 h]
  · intro h
    obtain ⟨err, herr⟩ := hct.2 h
    simp [herr]

theorem NewHook_levels {σ : Type} (lib : Logrus) (b : Backend σ)
    (accountName accountKey tableName : String) (level : Level) (s : σ) (hook : AtsHook)
    (h : (NewHook lib b accountName accountKey tableName level s).value = some hook) :
    hook.levels = selectLevels lib level := by
  unfold NewHook at h
  rcases hcc : createTableClient b accountName accountKey with ⟨r, calls⟩
  rw [hcc] at h
  cases r with
  | error e => simp at h
  | ok client =>
    simp only at h
    cases hv : (createTable b client.GetTableService tableName s).value with
    | error e => rw [hv] at h; simp at h
    | ok t =>
      rw [hv] at h
      simp only [Option.some.injEq] at h
      rw [← h]


/-! ## Lemmas on Fire -/

theorem lookup_copy (l : List (Sigma fun _ : String => Value)) (hl : l.NodupKeys)
    (acc : Fields) (k : String) :
    (l.foldl (fun props kv => props.insert kv.1 kv.2) acc).lookup k
      = (List.dlookup k l).orElse (fun _ => acc.lookup k) := by
  induction l generalizing acc with
  | nil => simp
  | cons x t ih =>
    obtain ⟨a, v⟩ := x
    rw [List.nodupKeys_cons] at hl
    rw [List.foldl_cons, ih hl.2]
    by_cases hk : k = a
    · subst hk
      have hnone : List.dlookup k t = none := List.dlookup_eq_none.mpr hl.1
      simp [hnone, List.dlookup_cons_eq, AList.lookup_insert]
    · have hne : k ≠ (⟨a, v⟩ : Sigma fun _ : String => Value).1 := hk
      rw [List.dlookup_cons_ne t _ hne, AList.lookup_insert_ne hk]

theorem props_lookup (lib : Logrus) (entry : Entry) (k : String) :
    (props lib entry).lookup k =
      if k = messageID then some (Value.str entry.Message)
      else if k = levelID then some (Value.str (lib.levelString entry.Level))
      else if k = timestampID then some (Value.time entry.Time.UTC)
      else entry.Data.lookup k := by
  unfold props
  by_cases h1 : k = messageID
  · subst h1
    simp [AList.lookup_insert]
  · rw [if_neg h1, AList.lookup_insert_ne h1]
    by_cases h2 : k = levelID
    · subst h2
      simp [AList.lookup_insert]
    · rw [if_neg h2, AList.lookup_insert_ne h2]
      by_cases h3 : k = timestampID
      · subst h3
        simp [AList.lookup_insert]
      · rw [if_neg h3, AList.lookup_insert_ne h3, lookup_copy _ entry.Data.nodupKeys]
        simp [AList.lookup]

theorem props_lookup_service (lib : Logrus) (entry : Entry) :
    (props lib entry).lookup "service" = entry.Data.lookup "service" := by
  rw [props_lookup]
  simp [messageID, levelID, timestampID]

theorem Fire_of_partitionKey {σ : Type} (lib : Logrus) (b : Backend σ) (hook : AtsHook)
    (entry : Entry) (s : σ) (pk : String) (h : partitionKey (props lib entry) = some pk) :
    Fire lib b (some hook) entry s
      = ⟨Outcome.returned (b.Insert s ⟨hook.table, pk, rowKey entry, props lib entry⟩).1,
          [Call.entityInsert ⟨hook.table, pk, rowKey entry, props lib entry⟩],
          (b.Insert s ⟨hook.table, pk, rowKey entry, props lib entry⟩).2⟩ := by
  unfold Fire
  simp only [h, Table.GetEntityReference]
  rcases hins : b.Insert s ⟨hook.table, pk, rowKey entry, props lib entry⟩ with ⟨r, s1⟩
  cases r <;> simp

theorem Fire_of_panic {σ : Type} (lib : Logrus) (b : Backend σ) (hook : AtsHook)
    (entry : Entry) (s : σ) (h : partitionKey (props lib entry) = none) :
    Fire lib b (some hook) entry s = ⟨Outcome.panicked, [], s⟩ := by
  unfold Fire
  simp only [h]

theorem Fire_calls_cases {σ : Type} (lib : Logrus) (b : Backend σ) (hook : AtsHook)
    (entry : Entry) (s : σ) (row : Entity)
    (h : Call.entityInsert row ∈ (Fire lib b (some hook) entry s).calls) :
    ∃ pk, partitionKey (props lib entry) = some pk ∧
      row = ⟨hook.table, pk, rowKey entry, props lib entry⟩ := by
  cases hpk : partitionKey (props lib entry) with
  | none =>
    rw [Fire_of_panic lib b hook entry s hpk] at h
    simp at h
  | some pk =>
    rw [Fire_of_partitionKey lib b hook entry s pk hpk] at h
    simp only [List.mem_singleton, Call.entityInsert.injEq] at h
    exact ⟨pk, rfl, h⟩


/-! ## Lemmas on decimal formatting -/

theorem digitChar_toNat (d : Nat) (h : d < 10) : (Nat.digitChar d).toNat = 48 + d := by
  interval_cases d <;> rfl

theorem isDigitChar_iff (c : Char) : isDigitChar c = true ↔ 48 ≤ c.toNat ∧ c.toNat ≤ 57 := by
  simp [isDigitChar]

theorem decimalDigits_acc (fuel u : Nat) (acc : List Char) :
    decimalDigits fuel u acc = decimalDigits fuel u [] ++ acc := by
  induction fuel generalizing u acc with
  | zero => simp [decimalDigits]
  | succ n ih =>
    by_cases h : u < 10
    · simp [decimalDigits, h]
    · simp only [decimalDigits, h, if_false]
      rw [ih (u / 10) (Nat.digitChar (u % 10) :: acc), ih (u / 10) [Nat.digitChar (u % 10)]]
      simp

theorem decimalDigits_small (n u : Nat) (h : u < 10) :
    decimalDigits (n + 1) u [] = [Nat.digitChar u] := by
  simp [decimalDigits, h]

theorem decimalDigits_step (n u : Nat) (h : ¬ u < 10) :
    decimalDigits (n + 1) u [] = decimalDigits n (u / 10) [] ++ [Nat.digitChar (u % 10)] := by
  simp only [decimalDigits, h, if_false]
  exact decimalDigits_acc n (u / 10) _

theorem decimalDigits_all (fuel u : Nat) :
    ∀ c ∈ decimalDigits fuel u [], isDigitChar c = true := by
  induction fuel generalizing u with
  | zero => simp [decimalDigits]
  | succ n ih =>
    intro c hc
    by_cases h : u < 10
    · rw [decimalDigits_small n u h, List.mem_singleton] at hc
      subst hc
      rw [isDigitChar_iff, digitChar_toNat u h]
      omega
    · rw [decimalDigits_step n u h, List.mem_append, List.mem_singleton] at hc
      rcases hc with hc | hc
      · exact ih (u / 10) c hc
      · subst hc
        rw [isDigitChar_iff, digitChar_toNat (u % 10) (Nat.mod_lt u (by norm_num))]
        omega

theorem decimalDigits_ne_nil (n u : Nat) : decimalDigits (n + 1) u [] ≠ [] := by
  by_cases h : u < 10
  · simp [decimalDigits_small n u h]
  · simp [decimalDigits_step n u h]

theorem digitsValue_snoc (xs : List Char) (c : Char) :
    digitsValue (xs ++ [c]) = digitsValue xs * 10 + (c.toNat - 48) := by
  simp [digitsValue, List.foldl_append]

theorem digitsValue_decimalDigits (fuel u : Nat) (h : u < 10 ^ fuel) :
    digitsValue (decimalDigits fuel u []) = u := by
  induction fuel generalizing u with
  | zero =>
    have hu : u = 0 := by simpa using h
    simp [decimalDigits, digitsValue, hu]
  | succ n ih =>
    by_cases hlt : u < 10
    · rw [decimalDigits_small n u hlt]
      simp [digitsValue, digitChar_toNat u hlt]
    · rw [decimalDigits_step n u hlt, digitsValue_snoc,
        digitChar_toNat (u % 10) (Nat.mod_lt u (by norm_num))]
      have hdiv : u / 10 < 10 ^ n := by
        apply Nat.div_lt_of_lt_mul
        rw [pow_succ] at h
        omega
      rw [ih (u / 10) hdiv]
      omega

theorem decimalDigits_length (k : Nat) :
    ∀ fuel u : Nat, 10 ^ k ≤ u → u < 10 ^ (k + 1) → k < fuel →
      (decimalDigits fuel u []).length = k + 1 := by
  induction k with
  | zero =>
    intro fuel u _ hu hf
    obtain ⟨n, rfl⟩ := Nat.exists_eq_succ_of_ne_zero (Nat.pos_iff_ne_zero.mp hf)
    have hlt : u < 10 := by simpa using hu
    simp [decimalDigits_small n u hlt]
  | succ k ih =>
    intro fuel u hl hu hf
    obtain ⟨n, rfl⟩ := Nat.exists_eq_succ_of_ne_zero (Nat.pos_iff_ne_zero.mp (by omega : 0 < fuel))
    have h10 : 10 ≤ u := by
      have : 10 ^ 1 ≤ 10 ^ (k + 1) := Nat.pow_le_pow_right (by norm_num) (by omega)
      omega
    rw [decimalDigits_step n u (by omega), List.length_append, List.length_singleton]
    have h1 : 10 ^ k ≤ u / 10 := by
      rw [Nat.le_div_iff_mul_le (by norm_num)]
      rw [pow_succ] at hl
      exact hl
    have h2 : u / 10 < 10 ^ (k + 1) := by
      apply Nat.div_lt_of_lt_mul
      rw [pow_succ] at hu
      omega
    rw [ih n (u / 10) h1 h2 (by omega)]


theorem foldl_digits_init (cs : List Char) (a : Nat) :
    cs.foldl (fun acc c => acc * 10 + (c.toNat - 48)) a
      = a * 10 ^ cs.length + cs.foldl (fun acc c => acc * 10 + (c.toNat - 48)) 0 := by
  induction cs generalizing a with
  | nil => simp
  | cons c t ih =>
    rw [List.foldl_cons, List.foldl_cons, ih (a * 10 + (c.toNat - 48)), ih (0 * 10 + (c.toNat - 48))]
    simp only [List.length_cons, pow_succ]
    ring

theorem digitsValue_cons (c : Char) (cs : List Char) :
    digitsValue (c :: cs) = (c.toNat - 48) * 10 ^ cs.length + digitsValue cs := by
  unfold digitsValue
  rw [List.foldl_cons, foldl_digits_init]
  simp

theorem digitsValue_lt (cs : List Char) (h : ∀ c ∈ cs, isDigitChar c = true) :
    digitsValue cs < 10 ^ cs.length := by
  induction cs with
  | nil => simp [digitsValue]
  | cons c t ih =>
    have hc := (isDigitChar_iff c).mp (h c (List.mem_cons_self c t))
    have ht := ih (fun x hx => h x (List.mem_cons_of_mem c hx))
    rw [digitsValue_cons, List.length_cons, pow_succ]
    have hd : c.toNat - 48 ≤ 9 := by omega
    have hmul : (c.toNat - 48) * 10 ^ t.length ≤ 9 * 10 ^ t.length :=
      Nat.mul_le_mul_right _ hd
    omega

theorem char_eq_of_toNat_eq (a b : Char) (h : a.toNat = b.toNat) : a = b := by
  apply Char.ext
  apply UInt32.ext
  exact h

theorem strLess_iff_digitsValue_lt (xs : List Char) :
    ∀ ys : List Char, xs.length = ys.length →
      (∀ c ∈ xs, isDigitChar c = true) → (∀ c ∈ ys, isDigitChar c = true) →
      (strLess xs ys = true ↔ digitsValue xs < digitsValue ys) := by
  induction xs with
  | nil =>
    intro ys hlen _ _
    cases ys with
    | nil => simp [strLess, digitsValue]
    | cons b bs => simp at hlen
  | cons a as ih =>
    intro ys hlen hx hy
    cases ys with
    | nil => simp at hlen
    | cons b bs =>
      have hlen2 : as.length = bs.length := by simpa using hlen
      have hxs : ∀ c ∈ as, isDigitChar c = true := fun c hc => hx c (List.mem_cons_of_mem a hc)
      have hys : ∀ c ∈ bs, isDigitChar c = true := fun c hc => hy c (List.mem_cons_of_mem b hc)
      have ha := (isDigitChar_iff a).mp (hx a (List.mem_cons_self a as))
      have hb := (isDigitChar_iff b).mp (hy b (List.mem_cons_self b bs))
      have hva := digitsValue_lt as hxs
      have hvb := digitsValue_lt bs hys
      have hrec := ih bs hlen2 hxs hys
      rw [digitsValue_cons, digitsValue_cons, hlen2]
      rw [hlen2] at hva
      rcases Nat.lt_trichotomy a.toNat b.toNat with hlt | heq | hgt
      · have hmul : (a.toNat - 48 + 1) * 10 ^ bs.length ≤ (b.toNat - 48) * 10 ^ bs.length :=
          Nat.mul_le_mul_right _ (by omega)
        rw [Nat.add_mul, Nat.one_mul] at hmul
        simp only [strLess, hlt, decide_True, Bool.true_or, true_iff]
        omega
      · have hab : a = b := char_eq_of_toNat_eq a b heq
        subst hab
        simp only [strLess, lt_irrefl, decide_False, Bool.false_or, decide_True, Bool.true_and]
        rw [hrec]
        omega
      · have hmul : (b.toNat - 48 + 1) * 10 ^ bs.length ≤ (a.toNat - 48) * 10 ^ bs.length :=
          Nat.mul_le_mul_right _ (by omega)
        rw [Nat.add_mul, Nat.one_mul] at hmul
        have hne : a ≠ b := by
          intro hab
          rw [hab] at hgt
          exact lt_irrefl _ hgt
        have hnlt : ¬ a.toNat < b.toNat := by omega
        simp only [strLess, hnlt, decide_False, Bool.false_or, hne, Bool.false_and]
        constructor
        · intro hf
          exact absurd hf (by simp)
        · intro hf
          omega

/-! ## Lemmas on the row key -/

theorem wrapInt64_of_fits (x : Int) (h1 : -(2 ^ 63 : Int) ≤ x) (h2 : x ≤ 2 ^ 63 - 1) :
    wrapInt64 x = x := by
  unfold wrapInt64
  norm_num at h1 h2 ⊢
  omega

theorem wrapInt64_range (x : Int) :
    -(2 ^ 63 : Int) ≤ wrapInt64 x ∧ wrapInt64 x ≤ 2 ^ 63 - 1 := by
  unfold wrapInt64
  norm_num
  omega

theorem FormatInt_isDecimalString (i : Int) : isDecimalString (FormatInt i).data = true := by
  unfold FormatInt
  have hall := decimalDigits_all 20 i.natAbs
  have hne := decimalDigits_ne_nil 19 i.natAbs
  by_cases hi : i < 0
  · simp only [hi, if_true, isDecimalString]
    simp only [List.isEmpty_eq_true, List.all_eq_true, Bool.and_eq_true, Bool.not_eq_true,
      decide_eq_false_iff_not, if_true]
    exact ⟨by simpa using hne, hall⟩
  · simp only [hi, if_false]
    cases hds : decimalDigits 20 i.natAbs [] with
    | nil => exact absurd hds hne
    | cons c ds =>
      rw [hds] at hall
      have hc := (isDigitChar_iff c).mp (hall c (List.mem_cons_self c ds))
      have hminus : c ≠ '-' := by
        intro hcm
        rw [hcm] at hc
        exact absurd hc.1 (by decide)
      simp only [isDecimalString, hminus, if_false, List.all_eq_true]
      exact hall

theorem FormatInt_decimalValue (i : Int) (h : i.natAbs < 10 ^ 20) :
    decimalValue (FormatInt i).data = i := by
  unfold FormatInt
  have hall := decimalDigits_all 20 i.natAbs
  have hne := decimalDigits_ne_nil 19 i.natAbs
  have hval := digitsValue_decimalDigits 20 i.natAbs h
  by_cases hi : i < 0
  · simp only [hi, if_true, decimalValue]
    rw [hval]
    omega
  · simp only [hi, if_false]
    cases hds : decimalDigits 20 i.natAbs [] with
    | nil => exact absurd hds hne
    | cons c ds =>
      rw [hds] at hall hval
      have hc := (isDigitChar_iff c).mp (hall c (List.mem_cons_self c ds))
      have hminus : c ≠ '-' := by
        intro hcm
        rw [hcm] at hc
        exact absurd hc.1 (by decide)
      simp only [decimalValue, hminus, if_false]
      rw [hval]
      omega

theorem rowKey_of_fits (entry : Entry) (h : fitsInt64 entry.Time) :
    rowKey entry = FormatInt entry.Time.nanos := by
  unfold rowKey Time.UnixNano
  rw [wrapInt64_of_fits _ h.1 h.2, wrapInt64_of_fits _ h.1 h.2]


theorem FormatInt_data_nonneg (i : Int) (h : 0 ≤ i) :
    (FormatInt i).data = decimalDigits 20 i.natAbs [] := by
  unfold FormatInt
  simp [not_lt.mpr h]

theorem rowKey_data_of_large (entry : Entry)
    (h : (10 : Int) ^ 18 ≤ entry.Time.nanos ∧ entry.Time.nanos ≤ 2 ^ 63 - 1) :
    (rowKey entry).data = decimalDigits 20 entry.Time.nanos.natAbs [] ∧
      (decimalDigits 20 entry.Time.nanos.natAbs []).length = 19 := by
  have hfit : fitsInt64 entry.Time := by
    unfold fitsInt64
    norm_num at h ⊢
    omega
  have h0 : (0 : Int) ≤ entry.Time.nanos := by
    norm_num at h
    omega
  refine ⟨by rw [rowKey_of_fits entry hfit, FormatInt_data_nonneg _ h0], ?_⟩
  apply decimalDigits_length 18 20
  · norm_num at h ⊢
    omega
  · norm_num at h ⊢
    omega
  · norm_num

/-! ## The claims -/

/-- C1: a hook that `NewHook` returns has `Levels()` equal to the elements of
`logrus.AllLevels` that are `<= level`, in the order of `logrus.AllLevels`:
it is the filtered list, hence a sublist, and every level occurs in it as
often as in `logrus.AllLevels` when it is `<= level` and not at all
otherwise. -/
theorem Levels_of_NewHook {σ : Type} (lib : Logrus) (b : Backend σ)
    (accountName accountKey tableName : String) (level : Level) (s : σ) (hook : AtsHook)
    (h : (NewHook lib b accountName accountKey tableName level s).value = some hook) :
    Levels lib (some hook) = lib.AllLevels.filter (fun lev => decide (lev ≤ level)) ∧
    (Levels lib (some hook)).Sublist lib.AllLevels ∧
    ∀ lev : Level, (Levels lib (some hook)).count lev
      = if lev ≤ level then lib.AllLevels.count lev else 0 := by
  have hl : Levels lib (some hook) = lib.AllLevels.filter (fun lev => decide (lev ≤ level)) := by
    simp only [Levels]
    rw [NewHook_levels lib b accountName accountKey tableName level s hook h,
      selectLevels_eq_filter]
  refine ⟨hl, ?_, ?_⟩
  · rw [hl]
    exact List.filter_sublist _
  · intro lev
    rw [hl]
    by_cases hlev : lev ≤ level
    · rw [if_pos hlev]
      exact List.count_filter (by simpa using hlev)
    · rw [if_neg hlev]
      apply List.count_eq_zero_of_not_mem
      intro hmem
      exact hlev (by simpa using (List.mem_filter.mp hmem).2)

theorem Levels_of_NewHook_witness :
    (NewHook logrusV1 memBackend "acct" "key" "applogs" 4 emptyStore).value = some demoHook ∧
    (Levels logrusV1 (some demoHook)
        = logrusV1.AllLevels.filter (fun lev => decide (lev ≤ 4)) ∧
      (Levels logrusV1 (some demoHook)).Sublist logrusV1.AllLevels ∧
      ∀ lev : Level, (Levels logrusV1 (some demoHook)).count lev
        = if lev ≤ 4 then logrusV1.AllLevels.count lev else 0) :=
  ⟨by decide,
    Levels_of_NewHook logrusV1 memBackend "acct" "key" "applogs" 4 emptyStore demoHook
      (by decide)⟩

/-- C2: on an enabled hook, an entry without a `service` field is inserted
under the partition key `"logrus"`, and an entry whose `service` field is the
string `sv` is inserted under the partition key `sv`; in both cases the one
request `Fire` sends is the insert of that row into the table of the hook. -/
theorem Fire_partitionKey {σ : Type} (lib : Logrus) (b : Backend σ) (hook : AtsHook)
    (entry : Entry) (s : σ) :
    (entry.Data.lookup "service" = none →
      (Fire lib b (some hook) entry s).calls
        = [Call.entityInsert ⟨hook.table, "logrus", rowKey entry, props lib entry⟩]) ∧
    (∀ sv : String, entry.Data.lookup "service" = some (Value.str sv) →
      (Fire lib b (some hook) entry s).calls
        = [Call.entityInsert ⟨hook.table, sv, rowKey entry, props lib entry⟩]) := by
  constructor
  · intro h
    have hpk : partitionKey (props lib entry) = some "logrus" := by
      simp [partitionKey, props_lookup_service, h]
    rw [Fire_of_partitionKey lib b hook entry s "logrus" hpk]
  · intro sv h
    have hpk : partitionKey (props lib entry) = some sv := by
      simp [partitionKey, props_lookup_service, h, Value.assertString]
    rw [Fire_of_partitionKey lib b hook entry s sv hpk]

theorem Fire_partitionKey_witness :
    billingEntry.Data.lookup "service" = some (Value.str "billing") ∧
    (Fire logrusV1 memBackend (some demoHook) billingEntry emptyStore).calls
      = [Call.entityInsert
          ⟨demoHook.table, "billing", rowKey billingEntry, props logrusV1 billingEntry⟩] :=
  ⟨by decide,
    (Fire_partitionKey logrusV1 memBackend demoHook billingEntry emptyStore).2 "billing"
      (by decide)⟩

/-- C3: on the entry whose `service` field is the integer 5, `Fire` on an
enabled hook panics: the type assertion `service.(string)` fails. -/
theorem Fire_int_service_panics :
    (Fire logrusV1 memBackend (some demoHook) intServiceEntry emptyStore).value
      = Outcome.panicked := by
  decide

/-- C4: every row `Fire` inserts on an enabled hook carries the three reserved
properties `LogTimestamp` (the entry time in UTC), `Level` (the level name)
and `Message` (the entry message), and under every other name exactly what the
entry has under that name: a field of the entry named like a reserved one is
replaced, every other field is kept, and nothing else is added. -/
theorem Fire_properties {σ : Type} (lib : Logrus) (b : Backend σ) (hook : AtsHook)
    (entry : Entry) (s : σ) (row : Entity)
    (h : Call.entityInsert row ∈ (Fire lib b (some hook) entry s).calls) :
    row.Properties.lookup "LogTimestamp" = some (Value.time entry.Time.UTC) ∧
    row.Properties.lookup "Level" = some (Value.str (lib.levelString entry.Level)) ∧
    row.Properties.lookup "Message" = some (Value.str entry.Message) ∧
    ∀ k : String, k ≠ "LogTimestamp" → k ≠ "Level" → k ≠ "Message" →
      row.Properties.lookup k = entry.Data.lookup k := by
  obtain ⟨pk, _, hrow⟩ := Fire_calls_cases lib b hook entry s row h
  subst hrow
  simp only
  refine ⟨?_, ?_, ?_, ?_⟩
  · rw [props_lookup]
    simp [messageID, levelID, timestampID]
  · rw [props_lookup]
    simp [messageID, levelID]
  · rw [props_lookup]
    simp [messageID]
  · intro k h1 h2 h3
    rw [props_lookup]
    simp [messageID, levelID, timestampID, h1, h2, h3]


theorem Fire_properties_witness :
    Call.entityInsert ⟨demoHook.table, "logrus", rowKey clashEntry, props logrusV1 clashEntry⟩
      ∈ (Fire logrusV1 memBackend (some demoHook) clashEntry emptyStore).calls ∧
    ((props logrusV1 clashEntry).lookup "LogTimestamp"
        = some (Value.time clashEntry.Time.UTC) ∧
      (props logrusV1 clashEntry).lookup "Level"
        = some (Value.str (logrusV1.levelString clashEntry.Level)) ∧
      (props logrusV1 clashEntry).lookup "Message" = some (Value.str clashEntry.Message) ∧
      ∀ k : String, k ≠ "LogTimestamp" → k ≠ "Level" → k ≠ "Message" →
        (props logrusV1 clashEntry).lookup k = clashEntry.Data.lookup k) :=
  ⟨List.mem_singleton.mpr rfl,
    Fire_properties logrusV1 memBackend demoHook clashEntry emptyStore
      ⟨demoHook.table, "logrus", rowKey clashEntry, props logrusV1 clashEntry⟩
      (List.mem_singleton.mpr rfl)⟩

/-- C5, as the claim states it, fails: the row key of the entry stamped
2262-04-11T23:47:16.854775808Z denotes a negative number, not the nanoseconds
since the epoch, and it denotes less than the row key of the earlier entry
stamped at the epoch. -/
theorem rowKey_not_nanos_past_int64 :
    ¬ (∀ e : Entry, decimalValue (rowKey e).data = e.Time.nanos) ∧
    ¬ (∀ e1 e2 : Entry, e1.Time.nanos ≤ e2.Time.nanos →
        decimalValue (rowKey e1).data ≤ decimalValue (rowKey e2).data) := by
  constructor
  · intro h
    exact absurd (h lateEntry) (by decide)
  · intro h
    exact absurd (h epochEntry lateEntry (by decide)) (by decide)

/-- C5, amended: the row key of every entry is a valid decimal string; for an
entry whose instant fits an `int64` nanosecond count the row key denotes the
nanoseconds since the epoch; and for two such entries with `t1 <= t2` the
first row key denotes at most what the second denotes. -/
theorem rowKey_decimal (e1 e2 : Entry) (h1 : fitsInt64 e1.Time) (h2 : fitsInt64 e2.Time) :
    (∀ e : Entry, isDecimalString (rowKey e).data = true) ∧
    decimalValue (rowKey e1).data = e1.Time.nanos ∧
    (e1.Time.nanos ≤ e2.Time.nanos →
      decimalValue (rowKey e1).data ≤ decimalValue (rowKey e2).data) := by
  have hv : ∀ e : Entry, fitsInt64 e.Time → decimalValue (rowKey e).data = e.Time.nanos := by
    intro e he
    rw [rowKey_of_fits e he]
    apply FormatInt_decimalValue
    have h := he
    unfold fitsInt64 at h
    norm_num at h ⊢
    omega
  refine ⟨fun e => FormatInt_isDecimalString _, hv e1 h1, ?_⟩
  intro hle
  rw [hv e1 h1, hv e2 h2]
  exact hle

theorem rowKey_decimal_witness :
    fitsInt64 bootEntry.Time ∧ fitsInt64 laterEntry.Time ∧
    ((∀ e : Entry, isDecimalString (rowKey e).data = true) ∧
      decimalValue (rowKey bootEntry).data = bootEntry.Time.nanos ∧
      (bootEntry.Time.nanos ≤ laterEntry.Time.nanos →
        decimalValue (rowKey bootEntry).data ≤ decimalValue (rowKey laterEntry).data)) :=
  ⟨by decide, by decide, rowKey_decimal bootEntry laterEntry (by decide) (by decide)⟩

/-- C6: on the entry whose `service` field is the integer 5, `Fire` on an
enabled hook sends no insert at all and does not return. -/
theorem Fire_int_service_no_insert :
    (Fire logrusV1 memBackend (some demoHook) intServiceEntry emptyStore).calls = [] ∧
    ∀ err : Option Error,
      (Fire logrusV1 memBackend (some demoHook) intServiceEntry emptyStore).value
        ≠ Outcome.returned err := by
  constructor
  · rfl
  · intro err h
    have hp : (Fire logrusV1 memBackend (some demoHook) intServiceEntry emptyStore).value
        = Outcome.panicked := by decide
    rw [hp] at h
    exact Outcome.noConfusion h

/-- On an enabled hook, for every entry whose `service` field is absent or a
string, `Fire` sends exactly one request, the insert of the row into the table
of the hook, and returns exactly the error value of that insert; the service
is left in the state the insert left it in. -/
theorem Fire_insert_once {σ : Type} (lib : Logrus) (b : Backend σ) (hook : AtsHook)
    (entry : Entry) (s : σ)
    (h : entry.Data.lookup "service" = none ∨
      ∃ sv : String, entry.Data.lookup "service" = some (Value.str sv)) :
    ∃ row : Entity, row.Table = hook.table ∧
      (Fire lib b (some hook) entry s).calls = [Call.entityInsert row] ∧
      (Fire lib b (some hook) entry s).value = Outcome.returned (b.Insert s row).1 ∧
      (Fire lib b (some hook) entry s).state = (b.Insert s row).2 := by
  have hpk : ∃ pk, partitionKey (props lib entry) = some pk := by
    rcases h with h | ⟨sv, h⟩
    · exact ⟨"logrus", by simp [partitionKey, props_lookup_service, h]⟩
    · exact ⟨sv, by simp [partitionKey, props_lookup_service, h, Value.assertString]⟩
  obtain ⟨pk, hpk⟩ := hpk
  refine ⟨⟨hook.table, pk, rowKey entry, props lib entry⟩, rfl, ?_, ?_, ?_⟩ <;>
    rw [Fire_of_partitionKey lib b hook entry s pk hpk]

/-- On an enabled hook, for every entry whose `service` field is present and
not a string, `Fire` panics before any request is sent. -/
theorem Fire_nonstring_service {σ : Type} (lib : Logrus) (b : Backend σ) (hook : AtsHook)
    (entry : Entry) (s : σ) (v : Value) (hv : entry.Data.lookup "service" = some v)
    (hs : v.assertString = none) :
    Fire lib b (some hook) entry s = ⟨Outcome.panicked, [], s⟩ := by
  apply Fire_of_panic
  simp [partitionKey, props_lookup_service, hv, hs]

/-- C7: on the nil hook, `Fire` returns a nil error for every entry, sends no
request and leaves the service as it was, and `Levels` returns
`logrus.AllLevels`. -/
theorem Fire_Levels_nil {σ : Type} (lib : Logrus) (b : Backend σ) (entry : Entry) (s : σ) :
    (Fire lib b none entry s).value = Outcome.returned none ∧
    (Fire lib b none entry s).calls = [] ∧
    (Fire lib b none entry s).state = s ∧
    Levels lib none = lib.AllLevels :=
  ⟨rfl, rfl, rfl, rfl⟩


theorem creationAccepted_iff (r : Option Error) :
    creationAccepted r = true ↔
      (r = none ∨ ∃ m st, r = some (Error.azureStorageService "TableAlreadyExists" m st)) := by
  cases r with
  | none => simp [creationAccepted]
  | some err =>
    cases err with
    | other msg => simp [creationAccepted]
    | azureStorageService code m st =>
      simp only [creationAccepted, beq_iff_eq, false_or, Option.some.injEq,
        Error.azureStorageService.injEq, reduceCtorEq]
      constructor
      · intro h
        exact ⟨m, st, h, rfl, rfl⟩
      · rintro ⟨_, _, h, _, _⟩
        exact h

/-- C8: once the client is open, `NewHook` returns a hook exactly when the
table creation succeeds or fails with a storage-service error of code
`TableAlreadyExists`, and nil for every other failure.  A hook it returns is
built from the arguments, the client and the selected levels only, so the hook
for a table that already exists equals the hook for a newly created table. -/
theorem NewHook_enabled_iff {σ : Type} (lib : Logrus) (b : Backend σ)
    (accountName accountKey tableName : String) (level : Level) (s : σ) (client : Client)
    (hc : (createTableClient b accountName accountKey).1 = Except.ok client) :
    ((NewHook lib b accountName accountKey tableName level s).value ≠ none ↔
      ((b.Create s (client.GetTableService.GetTableReference tableName) 30).1 = none ∨
        ∃ m st, (b.Create s (client.GetTableService.GetTableReference tableName) 30).1
          = some (Error.azureStorageService "TableAlreadyExists" m st))) ∧
    (∀ hook : AtsHook,
      (NewHook lib b accountName accountKey tableName level s).value = some hook →
      hook = ⟨accountName, accountKey, tableName, client.GetTableService,
        client.GetTableService.GetTableReference tableName,
        lib.AllLevels.filter (fun lev => decide (lev ≤ level)), none⟩) ∧
    (∀ (b2 : Backend σ) (s2 : σ),
      (createTableClient b2 accountName accountKey).1 = Except.ok client →
      (NewHook lib b accountName accountKey tableName level s).value ≠ none →
      (NewHook lib b2 accountName accountKey tableName level s2).value ≠ none →
      (NewHook lib b accountName accountKey tableName level s).value
        = (NewHook lib b2 accountName accountKey tableName level s2).value) := by
  have canon : ∀ (b1 : Backend σ) (s1 : σ),
      (createTableClient b1 accountName accountKey).1 = Except.ok client →
      (NewHook lib b1 accountName accountKey tableName level s1).value ≠ none →
      (NewHook lib b1 accountName accountKey tableName level s1).value
        = some ⟨accountName, accountKey, tableName, client.GetTableService,
            client.GetTableService.GetTableReference tableName,
            lib.AllLevels.filter (fun lev => decide (lev ≤ level)), none⟩ := by
    intro b1 s1 hc1 hne
    have hv := NewHook_value lib b1 accountName accountKey tableName level s1 client hc1
    cases hacc : creationAccepted
        (b1.Create s1 (client.GetTableService.GetTableReference tableName) 30).1 with
    | false => exact absurd (hv.2 hacc) hne
    | true => rw [hv.1 hacc, selectLevels_eq_filter]
  have hv := NewHook_value lib b accountName accountKey tableName level s client hc
  refine ⟨?_, ?_, ?_⟩
  · rw [← creationAccepted_iff]
    constructor
    · intro hne
      cases hacc : creationAccepted
          (b.Create s (client.GetTableService.GetTableReference tableName) 30).1 with
      | false => exact absurd (hv.2 hacc) hne
      | true => rfl
    · intro hacc
      rw [hv.1 hacc]
      simp
  · intro hook hsome
    have hne : (NewHook lib b accountName accountKey tableName level s).value ≠ none := by
      rw [hsome]
      simp
    rw [canon b s hc hne] at hsome
    exact (Option.some.inj hsome).symm
  · intro b2 s2 hc2 hne hne2
    rw [canon b s hc hne, canon b2 s2 hc2 hne2]

theorem NewHook_enabled_iff_witness :
    (createTableClient memBackend "acct" "key").1 = Except.ok ⟨"acct", "key"⟩ ∧
    (((NewHook logrusV1 memBackend "acct" "key" "applogs" 4 provisionedStore).value ≠ none ↔
      ((memBackend.Create provisionedStore
          ((⟨"acct", "key"⟩ : Client).GetTableService.GetTableReference "applogs") 30).1 = none ∨
        ∃ m st, (memBackend.Create provisionedStore
          ((⟨"acct", "key"⟩ : Client).GetTableService.GetTableReference "applogs") 30).1
          = some (Error.azureStorageService "TableAlreadyExists" m st))) ∧
    (∀ hook : AtsHook,
      (NewHook logrusV1 memBackend "acct" "key" "applogs" 4 provisionedStore).value = some hook →
      hook = ⟨"acct", "key", "applogs", (⟨"acct", "key"⟩ : Client).GetTableService,
        (⟨"acct", "key"⟩ : Client).GetTableService.GetTableReference "applogs",
        logrusV1.AllLevels.filter (fun lev => decide (lev ≤ 4)), none⟩) ∧
    (∀ (b2 : Backend Store) (s2 : Store),
      (createTableClient b2 "acct" "key").1 = Except.ok ⟨"acct", "key"⟩ →
      (NewHook logrusV1 memBackend "acct" "key" "applogs" 4 provisionedStore).value ≠ none →
      (NewHook logrusV1 b2 "acct" "key" "applogs" 4 s2).value ≠ none →
      (NewHook logrusV1 memBackend "acct" "key" "applogs" 4 provisionedStore).value
        = (NewHook logrusV1 b2 "acct" "key" "applogs" 4 s2).value)) :=
  ⟨rfl, NewHook_enabled_iff logrusV1 memBackend "acct" "key" "applogs" 4 provisionedStore
    ⟨"acct", "key"⟩ rfl⟩

/-- The hook built against a service that already has the table equals the
hook built against a service that has to create it. -/
theorem NewHook_existing_table_same_hook :
    (NewHook logrusV1 memBackend "acct" "key" "applogs" 4 provisionedStore).value
      = some demoHook ∧
    (NewHook logrusV1 memBackend "acct" "key" "applogs" 4 emptyStore).value
      = some demoHook ∧
    (NewHook logrusV1 memBackend "acct" "key" "applogs" 4 emptyStore).state
      = provisionedStore := by
  decide

/-- C9: `createTableClient` opens the client with the two environment values
`ACCOUNT_NAME` and `ACCOUNT_KEY` when at least one argument is empty, and with
exactly the two arguments when both are non-empty; in the second case the
environment has no influence on the result. -/
theorem createTableClient_credentials {σ : Type} (b : Backend σ)
    (accountName accountKey : String) :
    ((accountName = "" ∨ accountKey = "") →
      (createTableClient b accountName accountKey).2
        = [Call.newBasicClient (b.Getenv "ACCOUNT_NAME") (b.Getenv "ACCOUNT_KEY")] ∧
      (createTableClient b accountName accountKey).1
        = b.NewBasicClient (b.Getenv "ACCOUNT_NAME") (b.Getenv "ACCOUNT_KEY")) ∧
    ((accountName ≠ "" ∧ accountKey ≠ "") →
      (createTableClient b accountName accountKey).2
        = [Call.newBasicClient accountName accountKey] ∧
      (createTableClient b accountName accountKey).1
        = b.NewBasicClient accountName accountKey ∧
      ∀ env : String → String,
        createTableClient { b with Getenv := env } accountName accountKey
          = createTableClient b accountName accountKey) := by
  constructor
  · intro h
    unfold createTableClient
    simp only [h, if_true]
    cases b.NewBasicClient (b.Getenv "ACCOUNT_NAME") (b.Getenv "ACCOUNT_KEY") <;> simp
  · intro h
    have hn : ¬ (accountName = "" ∨ accountKey = "") := by
      rintro (h1 | h1)
      · exact h.1 h1
      · exact h.2 h1
    unfold createTableClient
    simp only [hn, if_false]
    cases b.NewBasicClient accountName accountKey <;> simp

theorem createTableClient_credentials_witness :
    ("acct" = "" ∨ "" = "") ∧
    ((createTableClient memBackend "acct" "").2 = [Call.newBasicClient "envacct" "envkey"] ∧
      (createTableClient memBackend "acct" "").1
        = memBackend.NewBasicClient "envacct" "envkey") :=
  ⟨Or.inr rfl, (createTableClient_credentials memBackend "acct" "").1 (Or.inr rfl)⟩


/-- C10: for two entries whose nanosecond timestamps lie between `10^18` and
`2^63 - 1`, both row keys have 19 characters, the first row key sorts strictly
before the second exactly when the first timestamp is the smaller one, and the
row keys are equal exactly when the timestamps are.  Outside that range the
orders can disagree: 9 is less than 10, yet the row key of 10 sorts strictly
before the row key of 9. -/
theorem rowKey_lexicographic :
    (∀ e1 e2 : Entry,
      ((10 : Int) ^ 18 ≤ e1.Time.nanos ∧ e1.Time.nanos ≤ 2 ^ 63 - 1) →
      ((10 : Int) ^ 18 ≤ e2.Time.nanos ∧ e2.Time.nanos ≤ 2 ^ 63 - 1) →
      (rowKey e1).length = 19 ∧ (rowKey e2).length = 19 ∧
      (e1.Time.nanos < e2.Time.nanos ↔ strLess (rowKey e1).data (rowKey e2).data = true) ∧
      (e1.Time.nanos = e2.Time.nanos ↔ rowKey e1 = rowKey e2)) ∧
    (0 ≤ nineEntry.Time.nanos ∧ nineEntry.Time.nanos < tenEntry.Time.nanos ∧
      strLess (rowKey tenEntry).data (rowKey nineEntry).data = true ∧
      strLess (rowKey nineEntry).data (rowKey tenEntry).data = false) := by
  constructor
  · intro e1 e2 h1 h2
    obtain ⟨hd1, hl1⟩ := rowKey_data_of_large e1 h1
    obtain ⟨hd2, hl2⟩ := rowKey_data_of_large e2 h2
    have hn1 : (0 : Int) ≤ e1.Time.nanos := by
      norm_num at h1
      omega
    have hn2 : (0 : Int) ≤ e2.Time.nanos := by
      norm_num at h2
      omega
    have hv1 := digitsValue_decimalDigits 20 e1.Time.nanos.natAbs (by
      norm_num at h1 ⊢
      omega)
    have hv2 := digitsValue_decimalDigits 20 e2.Time.nanos.natAbs (by
      norm_num at h2 ⊢
      omega)
    have hlex := strLess_iff_digitsValue_lt _ _ (hl1.trans hl2.symm)
      (decimalDigits_all 20 e1.Time.nanos.natAbs) (decimalDigits_all 20 e2.Time.nanos.natAbs)
    rw [hv1, hv2] at hlex
    refine ⟨?_, ?_, ?_, ?_⟩
    · show (rowKey e1).data.length = 19
      rw [hd1, hl1]
    · show (rowKey e2).data.length = 19
      rw [hd2, hl2]
    · rw [hd1, hd2, hlex]
      omega
    · constructor
      · intro heq
        apply String.ext
        rw [hd1, hd2, heq]
      · intro heq
        have hdata : decimalDigits 20 e1.Time.nanos.natAbs []
            = decimalDigits 20 e2.Time.nanos.natAbs [] := by
          rw [← hd1, ← hd2, heq]
        have hval : e1.Time.nanos.natAbs = e2.Time.nanos.natAbs := by
          rw [← hv1, ← hv2, hdata]
        omega
  · decide

theorem rowKey_lexicographic_witness :
    ((10 : Int) ^ 18 ≤ bootEntry.Time.nanos ∧ bootEntry.Time.nanos ≤ 2 ^ 63 - 1) ∧
    ((10 : Int) ^ 18 ≤ laterEntry.Time.nanos ∧ laterEntry.Time.nanos ≤ 2 ^ 63 - 1) ∧
    ((rowKey bootEntry).length = 19 ∧ (rowKey laterEntry).length = 19 ∧
      (bootEntry.Time.nanos < laterEntry.Time.nanos ↔
        strLess (rowKey bootEntry).data (rowKey laterEntry).data = true) ∧
      (bootEntry.Time.nanos = laterEntry.Time.nanos ↔ rowKey bootEntry = rowKey laterEntry)) :=
  ⟨by decide, by decide,
    rowKey_lexicographic.1 bootEntry laterEntry (by decide) (by decide)⟩

end Atshook
